import Mathlib

/-!
The class oplib::ds::Vector of lib/ds/Vector.H

A shallow embedding of the members of `oplib::ds::Vector<T, Alloc>` that are
defined in the header, over an explicit heap.

* An address is a natural number counted in slots of `T`; `nullptr` is `0`.
* A slot of the heap holds `some x` when a `T` of value `x` is constructed
  there and `none` when it is raw (unconstructed) storage.
* Every call made to the allocator (`allocate`, `deallocate`, `construct`,
  `destroy`) is appended to the heap's call log.
* A pointer difference is an integer (`ptrdiff_t`); the conversion to
  `size_type` reduces it modulo `2 ^ 64`.
* A member function that can let an exception escape returns `Except`: the
  error carries the kind of failure and the members as they were when the
  exception left the function.
-/

namespace oplib
namespace ds

/-- Number of value bits of `size_type` (`size_t`). -/
def SIZE_BITS : Nat := 64

/-- The conversion `size_type(d)` of a pointer difference `d`. -/
def size_type (d : Int) : Nat := (d % (2 : Int) ^ SIZE_BITS).toNat

/-- The null pointer. -/
def nullptr : Nat := 0

/-- The difference `a - b` of two pointers, a `ptrdiff_t`. -/
def ptrdiff (a b : Nat) : Int := (a : Int) - (b : Int)

/-- The pointer `p - d` for a pointer `p` and a `ptrdiff_t` `d`. -/
def ptr_sub (p : Nat) (d : Int) : Nat := ((p : Int) - d).toNat

/-- One call made to the allocator capability. -/
inductive AllocCall where
  | allocate (n : Nat) (r : Option Nat)
  | deallocate (p : Nat) (n : Nat)
  | construct (p : Nat)
  | destroy (p : Nat)
  deriving DecidableEq, Repr

/-- The two kinds of failure that can leave a member function. -/
inductive Failure where
  | AllocationError
  | ConstructError
  deriving DecidableEq, Repr

/-- The heap: the content of every slot and the log of allocator calls. -/
structure Heap (T : Type) where
  mem : Nat → Option T
  calls : List AllocCall

/-- Store `c` in the slot at `p`. -/
def Heap.write {T : Type} (h : Heap T) (p : Nat) (c : Option T) : Heap T :=
  { h with mem := fun q => if q = p then c else h.mem q }

/-- Append one allocator call to the log. -/
def Heap.call {T : Type} (h : Heap T) (c : AllocCall) : Heap T :=
  { h with calls := h.calls ++ [c] }

/-- The data members of `Vector<T, Alloc>` (`start`, `finish`, `cp_.first()`)
together with the heap they point into. -/
structure Vector (T : Type) where
  start : Nat
  finish : Nat
  cp_first : Nat
  heap : Heap T

/-- What the members of `Vector` take from outside the header: the answer of
the allocator to `allocate(n)` (`none` when it throws), whether the copy
constructor of `T` throws when it runs on the slot at a given address, and
`insertAux`, which the header declares and `VectorT.C` defines. -/
structure Env (T : Type) where
  allocate : Nat → Option Nat
  copyThrows : Nat → Bool
  insertAux : Vector T → Nat → T → Except (Failure × Vector T) (Vector T)

/-- The allocator call `getAllocator().allocate(n)`: the request is logged with its answer. -/
def Alloc.allocate {T : Type} (env : Env T) (h : Heap T) (n : Nat) :
    Except (Heap T) (Nat × Heap T) :=
  match env.allocate n with
  | none => .error (h.call (.allocate n none))
  | some p => .ok (p, h.call (.allocate n (some p)))

/-- The allocator call `getAllocator().deallocate(p, n)`. -/
def Alloc.deallocate {T : Type} (h : Heap T) (p n : Nat) : Heap T :=
  h.call (.deallocate p n)

/-- The allocator call `getAllocator().construct(p, x)`: copy-constructs `x` in the slot at `p`;
when the copy constructor throws the slot stays as it was. -/
def Alloc.construct {T : Type} (env : Env T) (h : Heap T) (p : Nat) (x : T) :
    Except (Heap T) (Heap T) :=
  if env.copyThrows p then .error (h.call (.construct p))
  else .ok ((h.call (.construct p)).write p (some x))

/-- The allocator call `getAllocator().destroy(p)`: runs the destructor, the slot becomes raw. -/
def Alloc.destroy {T : Type} (h : Heap T) (p : Nat) : Heap T :=
  (h.call (.destroy p)).write p none

/-- The loop of `std::copy` over `k` elements: `*d_first++ = *first++`. -/
def copy_loop {T : Type} (mem : Nat → Option T) : Nat → Nat → Nat → (Nat → Option T)
  | 0, _, _ => mem
  | k + 1, first, d_first =>
    copy_loop (fun q => if q = d_first then mem first else mem q) k (first + 1) (d_first + 1)

/-- The algorithm `std::copy(first, last, d_first)` on pointers: it assigns the
`last - first` elements in forward order, `*d_first++ = *first++`, and returns
the end of the destination range. -/
def std_copy {T : Type} (h : Heap T) (first last d_first : Nat) : Heap T × Nat :=
  ({ h with mem := copy_loop h.mem (last - first) first d_first }, d_first + (last - first))

/-- The loop of `std::uninitialized_fill_n`: `k` more copies of `value_` are
constructed from `cur` on; when one throws, the slots `[first, cur)` built so
far are destroyed and the exception is passed on. -/
def uninitialized_fill_loop {T : Type} (env : Env T) (first : Nat) (value_ : T) :
    (Nat → Option T) → Nat → Nat → Except (Nat → Option T) (Nat → Option T)
  | mem, 0, _ => .ok mem
  | mem, k + 1, cur =>
    if env.copyThrows cur then
      .error (fun q => if first ≤ q ∧ q < cur then none else mem q)
    else
      uninitialized_fill_loop env first value_
        (fun q => if q = cur then some value_ else mem q) k (cur + 1)

/-- The algorithm `std::uninitialized_fill_n(first, n, value_)`. -/
def uninitialized_fill_n {T : Type} (env : Env T) (h : Heap T) (first n : Nat) (value_ : T) :
    Except (Heap T) (Heap T) :=
  match uninitialized_fill_loop env first value_ h.mem n first with
  | .error m => .error { h with mem := m }
  | .ok m => .ok { h with mem := m }

/-- The adaptor `std::reverse_iterator<iterator>`: it wraps the iterator
`current`. -/
structure reverse_iterator where
  current : Nat
  deriving DecidableEq, Repr

/-- The dereference `*r` of a reverse iterator: `tmp = current; return *--tmp`. -/
def reverse_iterator.deref {T : Type} (h : Heap T) (r : reverse_iterator) : Option T :=
  h.mem (r.current - 1)

/-- The increment `++r` of a reverse iterator: `--current`. -/
def reverse_iterator.incr (r : reverse_iterator) : reverse_iterator :=
  { current := r.current - 1 }

/-- The traversal `for (it = first; it != last; ++it)` reading `*it`, with at
most `fuel` increments; `none` when `last` is not met within the fuel. -/
def read_forward {T : Type} (h : Heap T) (last : Nat) : Nat → Nat → Option (List (Option T))
  | 0, it => if it = last then some [] else none
  | fuel + 1, it =>
    if it = last then some []
    else (read_forward h last fuel (it + 1)).map (fun l => h.mem it :: l)

/-- The traversal `for (r = first; r != last; ++r)` over reverse iterators
reading `*r`, with at most `fuel` increments; `none` when `last` is not met
within the fuel. -/
def read_reverse {T : Type} (h : Heap T) (last : reverse_iterator) :
    Nat → reverse_iterator → Option (List (Option T))
  | 0, r => if r = last then some [] else none
  | fuel + 1, r =>
    if r = last then some []
    else (read_reverse h last fuel r.incr).map (fun l => r.deref h :: l)

namespace Vector

variable {T : Type}

/-- The member `begin()`. -/
def begin (v : Vector T) : Nat := v.start

/-- The member `end()`. -/
def end_ (v : Vector T) : Nat := v.finish

/-- The member `cbegin()`. -/
def cbegin (v : Vector T) : Nat := v.start

/-- The member `cend()`. -/
def cend (v : Vector T) : Nat := v.finish

/-- The member `rbegin()`. -/
def rbegin (v : Vector T) : reverse_iterator := { current := v.end_ }

/-- The member `rend()`. -/
def rend (v : Vector T) : reverse_iterator := { current := v.begin }

/-- The member `size()`. -/
def size (v : Vector T) : Nat := size_type (ptrdiff v.cend v.cbegin)

/-- The member `capacity()`. -/
def capacity (v : Vector T) : Nat := size_type (ptrdiff v.cp_first v.begin)

/-- The member `empty()`. -/
def empty (v : Vector T) : Bool := v.start == v.finish

/-- The member `operator[](n)`: the content of the slot at `begin() + n`. -/
def subscript (v : Vector T) (n : Nat) : Option T := v.heap.mem (v.begin + n)

/-- The loop of `destroy(beg_, end_)`, which runs `end_ - beg_` times when
`beg_ < end_` and not at all otherwise. -/
def destroy_loop (h : Heap T) : Nat → Nat → Heap T
  | 0, _ => h
  | k + 1, beg_ => destroy_loop (Alloc.destroy h beg_) k (beg_ + 1)

/-- The member `destroy(beg_, end_)`. -/
def destroy (v : Vector T) (beg_ end_ : Nat) : Vector T :=
  { v with heap := destroy_loop v.heap (end_ - beg_) beg_ }

/-- The member `deallocate()`. -/
def deallocate (v : Vector T) : Vector T :=
  if v.start ≠ nullptr then
    { v with heap := Alloc.deallocate v.heap v.start (size_type (ptrdiff v.cp_first v.start)) }
  else v

/-- The member `fillInitialize(n_, value_)`. -/
def fillInitialize (env : Env T) (v : Vector T) (n_ : Nat) (value_ : T) :
    Except (Failure × Vector T) (Vector T) :=
  match Alloc.allocate env v.heap n_ with
  | .error h => .error (.AllocationError, { v with heap := h })
  | .ok (p, h) =>
    let v1 := { v with start := p, heap := h }
    match uninitialized_fill_n env v1.heap v1.start n_ value_ with
    | .error h2 => .error (.ConstructError, { v1 with heap := h2 })
    | .ok h2 =>
      let v2 := { v1 with heap := h2 }
      let v3 := { v2 with finish := v2.start + n_ }
      .ok { v3 with cp_first := v3.finish }

/-- The constructor `Vector(const Alloc&)`, run in the heap `h`. -/
def ctor_default (h : Heap T) : Vector T :=
  { start := nullptr, finish := nullptr, cp_first := nullptr, heap := h }

/-- The constructor `Vector(size_type n, const T& value, const Alloc&)`, run
in the heap `h`. When the body throws, the object is never formed and its
destructor does not run. -/
def ctor_fill (env : Env T) (h : Heap T) (n : Nat) (value : T) :
    Except (Failure × Vector T) (Vector T) :=
  fillInitialize env { start := nullptr, finish := nullptr, cp_first := nullptr, heap := h }
    n value

/-- The destructor `~Vector()`; what is left is the heap. -/
def dtor (v : Vector T) : Heap T :=
  ((v.destroy v.begin v.end_).deallocate).heap

/-- The member `pop_back()`. -/
def pop_back (v : Vector T) : Vector T :=
  let v1 := { v with finish := v.finish - 1 }
  { v1 with heap := Alloc.destroy v1.heap v1.finish }

/-- The member `push_back(x)`. -/
def push_back (env : Env T) (v : Vector T) (x : T) :
    Except (Failure × Vector T) (Vector T) :=
  if v.finish ≠ v.cp_first then
    match Alloc.construct env v.heap v.finish x with
    | .error h => .error (.ConstructError, { v with heap := h })
    | .ok h =>
      let v1 := { v with heap := h }
      .ok { v1 with finish := v1.finish + 1 }
  else
    env.insertAux v v.end_ x

/-- The member `erase(first, last)`: the vector after the call and the returned cursor. -/
def erase (v : Vector T) (first last : Nat) : Vector T × Nat :=
  let c := std_copy v.heap last v.finish first
  let i := c.2
  let v1 := ({ v with heap := c.1 } : Vector T).destroy i v.finish
  ({ v1 with finish := ptr_sub v1.finish (ptrdiff last first) }, first)

/-- The member `erase(position)`: the vector after the call and the returned cursor. -/
def erase_at (v : Vector T) (position : Nat) : Vector T × Nat :=
  let v1 : Vector T :=
    if position + 1 ≠ v.finish then
      { v with heap := (std_copy v.heap (position + 1) v.finish position).1 }
    else v
  let v2 := { v1 with finish := v1.finish - 1 }
  ({ v2 with heap := Alloc.destroy v2.heap v2.finish }, position)

/-- The member `clear()`. -/
def clear (v : Vector T) : Vector T :=
  (v.erase v.begin v.end_).1

/-- The calls `push_back(x1); ...; push_back(xN)` one after the other; an
exception leaving one of them ends the sequence. -/
def push_back_all (env : Env T) : Vector T → List T → Except (Failure × Vector T) (Vector T)
  | v, [] => .ok v
  | v, x :: xs =>
    match v.push_back env x with
    | .error e => .error e
    | .ok v1 => push_back_all env v1 xs

/-- The sequence read by `operator[]` at the indices `0 .. size() - 1`. -/
def contents (v : Vector T) : List (Option T) :=
  (List.range v.size).map v.subscript

/-- The vector holds the sequence `s`: `size()` is the length of `s` and the
slot at index `k` holds a constructed element of value `s[k]`. -/
def Holds (v : Vector T) (s : List T) : Prop :=
  v.contents = s.map some

/-- The positions are ordered, `start ≤ finish ≤ cp_.first()`, and the number
of slots of the buffer is a value of `size_type`. -/
def Valid (v : Vector T) : Prop :=
  v.start ≤ v.finish ∧ v.finish ≤ v.cp_first ∧ v.cp_first - v.start < 2 ^ SIZE_BITS

/-- The live-zone invariant: every slot of `[start, finish)` holds a
constructed element and every slot of `[finish, cp_.first())` is raw. -/
def LiveZone (v : Vector T) : Prop :=
  (∀ p, v.start ≤ p → p < v.finish → (v.heap.mem p).isSome = true) ∧
  (∀ p, v.finish ≤ p → p < v.cp_first → v.heap.mem p = none)

/-- The states reached from the default or the fill constructor by
`push_back` with spare capacity, `pop_back` on a non-empty vector, `erase`
with positions inside the live range (`first ≤ last`), and `clear`. -/
inductive Reachable : Vector T → Prop
  | ctor_default (h : Heap T) : Reachable (Vector.ctor_default h)
  | ctor_fill (env : Env T) (h : Heap T) (n : Nat) (value : T) (v : Vector T) :
      n < 2 ^ SIZE_BITS → Vector.ctor_fill env h n value = .ok v → Reachable v
  | push_back (env : Env T) (v : Vector T) (x : T) (v1 : Vector T) :
      Reachable v → v.size < v.capacity → v.push_back env x = .ok v1 → Reachable v1
  | pop_back (v : Vector T) : Reachable v → v.empty = false → Reachable v.pop_back
  | erase (v : Vector T) (first last : Nat) :
      Reachable v → v.begin ≤ first → first ≤ last → last ≤ v.end_ →
      Reachable (v.erase first last).1
  | erase_at (v : Vector T) (position : Nat) :
      Reachable v → v.begin ≤ position → position < v.end_ →
      Reachable (v.erase_at position).1
  | clear (v : Vector T) : Reachable v → Reachable v.clear

end Vector

/-- A five-element vector of naturals `[1,2,3,4,5]` at address 100 with
capacity 8, in a heap with an empty call log. -/
def sample5 : Vector Nat :=
  { start := 100, finish := 105, cp_first := 108,
    heap := { mem := fun p => if 100 ≤ p ∧ p < 105 then some (p - 99) else none, calls := [] } }

/-- A one-element vector of naturals `[7]` at address 200 with capacity 3, in
a heap with an empty call log. -/
def sample1 : Vector Nat :=
  { start := 200, finish := 201, cp_first := 203,
    heap := { mem := fun p => if p = 200 then some 7 else none, calls := [] } }

/-- An environment in which nothing throws: `allocate(n)` answers address
200, the copy constructor never throws, and `insertAux` leaves the vector as
it is. -/
def sampleEnv : Env Nat :=
  { allocate := fun _ => some 200, copyThrows := fun _ => false, insertAux := fun v _ _ => .ok v }

/-- An environment in which `allocate(n)` answers address 200 and the copy
constructor throws when it runs on the slot at address 201. -/
def sampleThrowEnv : Env Nat :=
  { allocate := fun _ => some 200, copyThrows := fun p => p == 201,
    insertAux := fun v _ _ => .ok v }

/-! ## Auxiliary facts -/

theorem size_type_ptrdiff (a b : Nat) (hab : a ≤ b) (hb : b - a < 2 ^ SIZE_BITS) :
    size_type (ptrdiff b a) = b - a := by
  unfold size_type ptrdiff
  have h1 : ((b : Int) - (a : Int)) = ((b - a : Nat) : Int) := by omega
  rw [h1]
  have h2 : (((b - a : Nat) : Int) % (2 : Int) ^ SIZE_BITS) = ((b - a : Nat) : Int) := by
    apply Int.emod_eq_of_lt
    · omega
    · have : ((2 : Int) ^ SIZE_BITS) = (((2 : Nat) ^ SIZE_BITS : Nat) : Int) := by norm_cast
      rw [this]
      exact_mod_cast hb
  rw [h2]
  simp

theorem ptr_sub_ptrdiff (p a b : Nat) (hab : a ≤ b) (hp : b - a ≤ p) :
    ptr_sub p (ptrdiff b a) = p - (b - a) := by
  unfold ptr_sub ptrdiff
  omega

theorem copy_loop_apply {T : Type} (k : Nat) :
    ∀ (mem : Nat → Option T) (first d_first : Nat), d_first ≤ first → ∀ q : Nat,
      copy_loop mem k first d_first q =
        if d_first ≤ q ∧ q < d_first + k then mem (q - d_first + first) else mem q := by
  induction k with
  | zero =>
    intro mem first d_first _ q
    rw [copy_loop, if_neg (by omega)]
  | succ k ih =>
    intro mem first d_first hd q
    rw [copy_loop, ih _ _ _ (by omega)]
    by_cases h1 : d_first + 1 ≤ q ∧ q < d_first + 1 + k
    · have h2 : d_first ≤ q ∧ q < d_first + (k + 1) := by omega
      have h3 : q - (d_first + 1) + (first + 1) ≠ d_first := by omega
      have h4 : q - (d_first + 1) + (first + 1) = q - d_first + first := by omega
      rw [if_pos h1, if_pos h2, if_neg h3, h4]
    · rw [if_neg h1]
      by_cases h5 : q = d_first
      · have h2 : d_first ≤ q ∧ q < d_first + (k + 1) := by omega
        rw [if_pos h5, if_pos h2, h5]
        congr 1
        omega
      · have h2 : ¬ (d_first ≤ q ∧ q < d_first + (k + 1)) := by omega
        rw [if_neg h5, if_neg h2]

namespace Vector

variable {T : Type}

theorem destroy_loop_mem (k : Nat) :
    ∀ (h : Heap T) (beg_ q : Nat),
      (destroy_loop h k beg_).mem q = if beg_ ≤ q ∧ q < beg_ + k then none else h.mem q := by
  induction k with
  | zero =>
    intro h beg_ q
    rw [destroy_loop, if_neg (by omega)]
  | succ k ih =>
    intro h beg_ q
    rw [destroy_loop, ih]
    by_cases h1 : beg_ + 1 ≤ q ∧ q < beg_ + 1 + k
    · have h2 : beg_ ≤ q ∧ q < beg_ + (k + 1) := by omega
      rw [if_pos h1, if_pos h2]
    · rw [if_neg h1]
      by_cases h5 : q = beg_
      · have h2 : beg_ ≤ q ∧ q < beg_ + (k + 1) := by omega
        rw [if_pos h2]
        simp [Alloc.destroy, Heap.write, h5]
      · have h2 : ¬ (beg_ ≤ q ∧ q < beg_ + (k + 1)) := by omega
        rw [if_neg h2]
        simp [Alloc.destroy, Heap.write, Heap.call, h5]

theorem destroy_loop_calls (k : Nat) :
    ∀ (h : Heap T) (beg_ : Nat),
      (destroy_loop h k beg_).calls =
        h.calls ++ (List.range k).map (fun t => AllocCall.destroy (beg_ + t)) := by
  induction k with
  | zero =>
    intro h beg_
    simp [destroy_loop]
  | succ k ih =>
    intro h beg_
    rw [destroy_loop, ih, List.range_succ_eq_map]
    simp [Alloc.destroy, Heap.write, Heap.call, Function.comp_def]
    intro a _
    omega

theorem size_eq (v : Vector T) (hv : v.Valid) : v.size = v.finish - v.start := by
  obtain ⟨h1, h2, h3⟩ := hv
  unfold size cend cbegin
  exact size_type_ptrdiff _ _ h1 (by omega)

theorem capacity_eq (v : Vector T) (hv : v.Valid) : v.capacity = v.cp_first - v.start := by
  obtain ⟨h1, h2, h3⟩ := hv
  unfold capacity begin
  exact size_type_ptrdiff _ _ (by omega) h3

theorem holds_iff (v : Vector T) (s : List T) :
    v.Holds s ↔ v.size = s.length ∧ ∀ k, k < s.length → v.heap.mem (v.start + k) = s[k]? := by
  unfold Holds contents
  constructor
  · intro h
    have hlen : v.size = s.length := by
      have := congrArg List.length h
      simpa using this
    refine ⟨hlen, ?_⟩
    intro k hk
    have := congrArg (fun l => l[k]?) h
    simp only [List.getElem?_map] at this
    rw [List.getElem?_range (by omega)] at this
    simpa [subscript, begin, List.getElem?_eq_getElem hk] using this
  · rintro ⟨hlen, h⟩
    apply List.ext_getElem?
    intro k
    simp only [List.getElem?_map]
    by_cases hk : k < s.length
    · rw [List.getElem?_range (by omega)]
      simp [subscript, begin, h k hk, List.getElem?_eq_getElem hk]
    · rw [List.getElem?_eq_none (by simp; omega), List.getElem?_eq_none (by omega)]
      rfl

theorem erase_mem (v : Vector T) (first last : Nat) (hfl : first ≤ last) (q : Nat) :
    (v.erase first last).1.heap.mem q =
      if first + (v.finish - last) ≤ q ∧
          q < first + (v.finish - last) + (v.finish - (first + (v.finish - last))) then none
      else if first ≤ q ∧ q < first + (v.finish - last) then v.heap.mem (q - first + last)
      else v.heap.mem q := by
  simp only [erase, destroy, std_copy]
  rw [destroy_loop_mem]
  simp only
  rw [copy_loop_apply _ _ _ _ hfl]

theorem erase_calls (v : Vector T) (first last : Nat) :
    (v.erase first last).1.heap.calls =
      v.heap.calls ++ (List.range (v.finish - (first + (v.finish - last)))).map
        (fun t => AllocCall.destroy (first + (v.finish - last) + t)) := by
  simp only [erase, destroy, std_copy]
  rw [destroy_loop_calls]

theorem erase_finish (v : Vector T) (first last : Nat) (hfl : first ≤ last)
    (hl : last - first ≤ v.finish) :
    (v.erase first last).1.finish = v.finish - (last - first) := by
  simp only [erase, destroy]
  exact ptr_sub_ptrdiff _ _ _ hfl hl

theorem erase_at_mem (v : Vector T) (position : Nat) (q : Nat) :
    (v.erase_at position).1.heap.mem q =
      if q = v.finish - 1 then none
      else if position ≤ q ∧ q < position + (v.finish - (position + 1)) then v.heap.mem (q + 1)
      else v.heap.mem q := by
  simp only [erase_at]
  by_cases hp : position + 1 = v.finish
  · simp only [hp, ne_eq, not_true_eq_false, if_false, Alloc.destroy, Heap.write, Heap.call]
    by_cases hq : q = v.finish - 1
    · simp [hq]
    · rw [if_neg hq, if_neg hq, if_neg (by omega)]
  · simp only [ne_eq, hp, not_false_eq_true, if_true, Alloc.destroy, Heap.write, Heap.call,
      std_copy]
    by_cases hq : q = v.finish - 1
    · simp [hq]
    · rw [if_neg hq, if_neg hq, copy_loop_apply _ _ _ _ (by omega)]
      by_cases hr : position ≤ q ∧ q < position + (v.finish - (position + 1))
      · rw [if_pos hr, if_pos hr]
        congr 1
        omega
      · rw [if_neg hr, if_neg hr]

theorem push_back_ok (env : Env T) (v : Vector T) (x : T)
    (hne : v.finish ≠ v.cp_first) (hc : env.copyThrows v.finish = false) :
    v.push_back env x = .ok
      { start := v.start, finish := v.finish + 1, cp_first := v.cp_first,
        heap := (v.heap.call (.construct v.finish)).write v.finish (some x) } := by
  simp [push_back, hne, Alloc.construct, hc]

theorem push_back_holds (v v1 : Vector T) (s : List T) (x : T)
    (hv : v.Valid) (hs : v.Holds s) (hlt : v.finish < v.cp_first)
    (h1 : v1 = Vector.mk v.start (v.finish + 1) v.cp_first
        ((v.heap.call (.construct v.finish)).write v.finish (some x))) :
    v1.Valid ∧ v1.Holds (s ++ [x]) := by
  have hN := ((holds_iff v s).1 hs).1
  have hel := ((holds_iff v s).1 hs).2
  have hsz := size_eq v hv
  obtain ⟨ha, hb, hc⟩ := hv
  have hval : v1.Valid := by
    subst h1
    exact ⟨by show v.start ≤ v.finish + 1; omega, by show v.finish + 1 ≤ v.cp_first; omega, hc⟩
  refine ⟨hval, ?_⟩
  rw [holds_iff]
  have hsz1 := size_eq v1 hval
  subst h1
  refine ⟨?_, ?_⟩
  · rw [hsz1]
    show v.finish + 1 - v.start = _
    simp only [List.length_append, List.length_singleton]
    omega
  · intro k hk
    simp only [List.length_append, List.length_singleton] at hk
    show (if v.start + k = v.finish then some x else v.heap.mem (v.start + k)) = _
    by_cases hks : k < s.length
    · rw [if_neg (by omega), hel k hks, List.getElem?_append_left hks]
    · have hk2 : k = s.length := by omega
      rw [if_pos (by omega), hk2, List.getElem?_append_right (le_refl _)]
      simp

theorem uninitialized_fill_loop_ok (env : Env T) (first : Nat) (value_ : T) (k : Nat) :
    ∀ (mem : Nat → Option T) (cur : Nat),
      (∀ q, cur ≤ q → q < cur + k → env.copyThrows q = false) →
      uninitialized_fill_loop env first value_ mem k cur =
        .ok (fun q => if cur ≤ q ∧ q < cur + k then some value_ else mem q) := by
  induction k with
  | zero =>
    intro mem cur _
    rw [uninitialized_fill_loop]
    congr 1
    funext q
    rw [if_neg (by omega)]
  | succ k ih =>
    intro mem cur hc
    rw [uninitialized_fill_loop, hc cur (le_refl _) (by omega)]
    simp only [Bool.false_eq_true, if_false]
    rw [ih _ _ (fun q h1 h2 => hc q (by omega) (by omega))]
    congr 1
    funext q
    by_cases h1 : cur + 1 ≤ q ∧ q < cur + 1 + k
    · rw [if_pos h1, if_pos (by omega)]
    · rw [if_neg h1]
      by_cases h2 : q = cur
      · rw [if_pos h2, if_pos (by omega)]
      · rw [if_neg h2, if_neg (by omega)]

theorem ctor_fill_ok (env : Env T) (h : Heap T) (n p : Nat) (value : T)
    (ha : env.allocate n = some p)
    (hc : ∀ q, p ≤ q → q < p + n → env.copyThrows q = false) :
    ctor_fill env h n value = .ok
      { start := p, finish := p + n, cp_first := p + n,
        heap := { mem := fun q => if p ≤ q ∧ q < p + n then some value else h.mem q,
                  calls := h.calls ++ [AllocCall.allocate n (some p)] } } := by
  simp only [ctor_fill, fillInitialize, Alloc.allocate, ha, uninitialized_fill_n, Heap.call]
  rw [uninitialized_fill_loop_ok env p value n _ p hc]

theorem ctor_fill_inv (env : Env T) (h : Heap T) (n : Nat) (value : T) (v : Vector T)
    (he : ctor_fill env h n value = .ok v) :
    v.finish = v.start + n ∧ v.cp_first = v.start + n := by
  simp only [ctor_fill, fillInitialize, Alloc.allocate, uninitialized_fill_n] at he
  cases ha : env.allocate n with
  | none => simp [ha] at he
  | some p =>
    simp only [ha] at he
    split at he
    · simp at he
    · simp only [Except.ok.injEq] at he
      subst he
      exact ⟨rfl, rfl⟩

theorem push_back_inv (env : Env T) (v v1 : Vector T) (x : T)
    (hne : v.finish ≠ v.cp_first) (he : v.push_back env x = .ok v1) :
    v1.start = v.start ∧ v1.finish = v.finish + 1 ∧ v1.cp_first = v.cp_first := by
  simp only [push_back, hne, ne_eq, not_false_eq_true, if_true, Alloc.construct] at he
  cases hc : env.copyThrows v.finish with
  | true => simp [hc] at he
  | false =>
    simp only [hc, Bool.false_eq_true, if_false, Except.ok.injEq] at he
    subst he
    exact ⟨rfl, rfl, rfl⟩

theorem erase_at_fields (v : Vector T) (position : Nat) :
    (v.erase_at position).1.start = v.start ∧
    (v.erase_at position).1.finish = v.finish - 1 ∧
    (v.erase_at position).1.cp_first = v.cp_first := by
  simp only [erase_at]
  split <;> exact ⟨rfl, rfl, rfl⟩

theorem reachable_valid (v : Vector T) (hr : Reachable v) : v.Valid := by
  induction hr with
  | ctor_default h =>
    exact ⟨le_refl _, le_refl _, by show 0 - 0 < 2 ^ SIZE_BITS; simp⟩
  | ctor_fill env h n value v hn he =>
    obtain ⟨h1, h2⟩ := ctor_fill_inv env h n value v he
    exact ⟨by omega, by omega, by omega⟩
  | push_back env v x v1 _ hcap he ih =>
    have hsz := size_eq v ih
    have hcp := capacity_eq v ih
    obtain ⟨ha, hb, hc⟩ := ih
    obtain ⟨h1, h2, h3⟩ := push_back_inv env v v1 x (by omega) he
    exact ⟨by omega, by omega, by rw [h1, h3]; exact hc⟩
  | pop_back v _ hne ih =>
    obtain ⟨ha, hb, hc⟩ := ih
    have : v.start ≠ v.finish := by simpa [empty] using hne
    exact ⟨by show v.start ≤ v.finish - 1; omega, by show v.finish - 1 ≤ v.cp_first; omega, hc⟩
  | erase v first last _ h1 h2 h3 ih =>
    obtain ⟨ha, hb, hc⟩ := ih
    have hb1 : v.start ≤ first := h1
    have he1 : last ≤ v.finish := h3
    have hfin := erase_finish v first last h2 (by omega)
    exact ⟨by rw [hfin]; show v.start ≤ _; omega, by rw [hfin]; show _ ≤ v.cp_first; omega, hc⟩
  | erase_at v position _ h1 h2 ih =>
    obtain ⟨ha, hb, hc⟩ := ih
    have hb1 : v.start ≤ position := h1
    have he1 : position < v.finish := h2
    obtain ⟨f1, f2, f3⟩ := erase_at_fields v position
    exact ⟨by rw [f1, f2]; omega, by rw [f2, f3]; omega, by rw [f1, f3]; exact hc⟩
  | clear v _ ih =>
    obtain ⟨ha, hb, hc⟩ := ih
    have hfin : v.clear.finish = v.finish - (v.finish - v.start) :=
      erase_finish v v.start v.finish ha (by omega)
    exact ⟨by rw [hfin]; show v.start ≤ _; omega, by rw [hfin]; show _ ≤ v.cp_first; omega, hc⟩

theorem read_forward_range (h : Heap T) (k : Nat) :
    ∀ (fuel it : Nat), k ≤ fuel →
      read_forward h (it + k) fuel it = some ((List.range k).map (fun t => h.mem (it + t))) := by
  induction k with
  | zero =>
    intro fuel it _
    cases fuel <;> simp [read_forward]
  | succ k ih =>
    intro fuel it hf
    obtain ⟨f, rfl⟩ : ∃ f, fuel = f + 1 := ⟨fuel - 1, by omega⟩
    rw [read_forward, if_neg (by omega)]
    have e : it + (k + 1) = it + 1 + k := by omega
    rw [e, ih f (it + 1) (by omega), List.range_succ_eq_map]
    simp only [Option.map_some', List.map_cons, List.map_map, Nat.add_zero]
    congr 2
    apply List.map_congr_left
    intro a _
    simp only [Function.comp_apply]
    congr 1
    omega

theorem read_reverse_range (h : Heap T) (b k : Nat) :
    ∀ (fuel : Nat), k ≤ fuel →
      read_reverse h { current := b } fuel { current := b + k } =
        some ((List.range k).map (fun t => h.mem (b + t))).reverse := by
  induction k with
  | zero =>
    intro fuel _
    cases fuel <;> simp [read_reverse]
  | succ k ih =>
    intro fuel hf
    obtain ⟨f, rfl⟩ : ∃ f, fuel = f + 1 := ⟨fuel - 1, by omega⟩
    have hne : ({ current := b + (k + 1) } : reverse_iterator) ≠ { current := b } := by
      intro hx
      have := congrArg reverse_iterator.current hx
      simp at this
    rw [read_reverse, if_neg hne]
    have e : ({ current := b + (k + 1) } : reverse_iterator).incr = { current := b + k } := rfl
    rw [e, ih f (by omega), List.range_succ]
    simp [reverse_iterator.deref]

theorem erase_at_calls (v : Vector T) (position : Nat) :
    (v.erase_at position).1.heap.calls = v.heap.calls ++ [AllocCall.destroy (v.finish - 1)] := by
  simp only [erase_at]
  split <;> rfl

theorem dtor_mem (v : Vector T) (q : Nat) :
    v.dtor.mem q =
      if v.start ≤ q ∧ q < v.start + (v.finish - v.start) then none else v.heap.mem q := by
  simp only [dtor, deallocate, destroy, begin, end_]
  split
  · simp only [Alloc.deallocate, Heap.call]
    rw [destroy_loop_mem]
  · rw [destroy_loop_mem]

theorem dtor_calls (v : Vector T) :
    v.dtor.calls =
      v.heap.calls ++ (List.range (v.finish - v.start)).map
        (fun k => AllocCall.destroy (v.start + k)) ++
      (if v.start ≠ nullptr then [AllocCall.deallocate v.start v.capacity] else []) := by
  simp only [dtor, deallocate, destroy, begin, end_, capacity]
  split
  · simp only [Alloc.deallocate, Heap.call]
    rw [destroy_loop_calls]
  · rw [destroy_loop_calls]
    simp

theorem uninitialized_fill_loop_inv (env : Env T) (first : Nat) (value_ : T) (k : Nat) :
    ∀ (mem m : Nat → Option T) (cur : Nat),
      uninitialized_fill_loop env first value_ mem k cur = .ok m →
      m = fun q => if cur ≤ q ∧ q < cur + k then some value_ else mem q := by
  induction k with
  | zero =>
    intro mem m cur he
    rw [uninitialized_fill_loop] at he
    simp only [Except.ok.injEq] at he
    subst he
    funext q
    rw [if_neg (by omega)]
  | succ k ih =>
    intro mem m cur he
    rw [uninitialized_fill_loop] at he
    cases hc : env.copyThrows cur with
    | true => simp [hc] at he
    | false =>
      simp only [hc, Bool.false_eq_true, if_false] at he
      rw [ih _ _ _ he]
      funext q
      by_cases h1 : cur + 1 ≤ q ∧ q < cur + 1 + k
      · rw [if_pos h1, if_pos (by omega)]
      · rw [if_neg h1]
        by_cases h2 : q = cur
        · rw [if_pos h2, if_pos (by omega)]
        · rw [if_neg h2, if_neg (by omega)]

theorem ctor_fill_inv_mem (env : Env T) (h : Heap T) (n : Nat) (value : T) (v : Vector T)
    (he : ctor_fill env h n value = .ok v) :
    ∀ q, v.start ≤ q → q < v.start + n → v.heap.mem q = some value := by
  simp only [ctor_fill, fillInitialize, Alloc.allocate, uninitialized_fill_n] at he
  cases ha : env.allocate n with
  | none => simp [ha] at he
  | some p =>
    simp only [ha] at he
    split at he
    · simp at he
    · rename_i m hm
      simp only [Except.ok.injEq] at he
      subst he
      intro q hq1 hq2
      split at hm
      · simp at hm
      · rename_i m2 hm2
        simp only [Except.ok.injEq] at hm
        subst hm
        rw [uninitialized_fill_loop_inv env _ value n _ _ _ hm2]
        show (if p ≤ q ∧ q < p + n then some value else _) = _
        rw [if_pos ⟨hq1, hq2⟩]

theorem push_back_inv_mem (env : Env T) (v v1 : Vector T) (x : T)
    (hne : v.finish ≠ v.cp_first) (he : v.push_back env x = .ok v1) :
    (∀ q, v1.heap.mem q = if q = v.finish then some x else v.heap.mem q) ∧
    v1.heap.calls = v.heap.calls ++ [AllocCall.construct v.finish] := by
  simp only [push_back, hne, ne_eq, not_false_eq_true, if_true, Alloc.construct] at he
  cases hc : env.copyThrows v.finish with
  | true => simp [hc] at he
  | false =>
    simp only [hc, Bool.false_eq_true, if_false, Except.ok.injEq] at he
    subst he
    exact ⟨fun _ => rfl, rfl⟩

theorem erase_livezone (v : Vector T) (first last : Nat) (hv : v.Valid) (hz : v.LiveZone)
    (h1 : v.start ≤ first) (h2 : first ≤ last) (h3 : last ≤ v.finish) :
    (v.erase first last).1.LiveZone := by
  obtain ⟨ha, hb, _⟩ := hv
  obtain ⟨hl, hr⟩ := hz
  have hfin := erase_finish v first last h2 (by omega)
  constructor
  · intro p hp1 hp2
    rw [hfin] at hp2
    have hp1b : v.start ≤ p := hp1
    rw [erase_mem _ _ _ h2, if_neg (by omega)]
    by_cases hp : first ≤ p
    · rw [if_pos (by omega)]
      exact hl _ (by omega) (by omega)
    · rw [if_neg (by omega)]
      exact hl _ hp1b (by omega)
  · intro p hp1 hp2
    rw [hfin] at hp1
    have hp2b : p < v.cp_first := hp2
    rw [erase_mem _ _ _ h2]
    by_cases hp : p < v.finish
    · rw [if_pos (by omega)]
    · rw [if_neg (by omega), if_neg (by omega)]
      exact hr _ (by omega) hp2b

theorem erase_at_livezone (v : Vector T) (position : Nat) (hv : v.Valid) (hz : v.LiveZone)
    (_h1 : v.start ≤ position) (h2 : position < v.finish) :
    (v.erase_at position).1.LiveZone := by
  obtain ⟨ha, hb, _⟩ := hv
  obtain ⟨hl, hr⟩ := hz
  obtain ⟨f1, f2, f3⟩ := erase_at_fields v position
  constructor
  · intro p hp1 hp2
    rw [f1] at hp1
    rw [f2] at hp2
    rw [erase_at_mem, if_neg (by omega)]
    by_cases hp : position ≤ p
    · rw [if_pos (by omega)]
      exact hl _ (by omega) (by omega)
    · rw [if_neg (by omega)]
      exact hl _ hp1 (by omega)
  · intro p hp1 hp2
    rw [f2] at hp1
    rw [f3] at hp2
    rw [erase_at_mem]
    by_cases hp : p = v.finish - 1
    · rw [if_pos hp]
    · rw [if_neg hp, if_neg (by omega)]
      exact hr _ (by omega) hp2

theorem reachable_livezone (v : Vector T) (hr : Reachable v) : v.LiveZone := by
  induction hr with
  | ctor_default h =>
    constructor
    · intro p hp1 hp2
      have : p < 0 := hp2
      omega
    · intro p hp1 hp2
      have : p < 0 := hp2
      omega
  | ctor_fill env h n value v hn he =>
    obtain ⟨h1, h2⟩ := ctor_fill_inv env h n value v he
    constructor
    · intro p hp1 hp2
      rw [ctor_fill_inv_mem env h n value v he p hp1 (by omega)]
      rfl
    · intro p hp1 hp2
      omega
  | push_back env v x v1 hr hcap he ih =>
    have hv := reachable_valid v hr
    have hsz := size_eq v hv
    have hcp := capacity_eq v hv
    obtain ⟨ha, hb, hc⟩ := hv
    obtain ⟨f1, f2, f3⟩ := push_back_inv env v v1 x (by omega) he
    obtain ⟨hm, _⟩ := push_back_inv_mem env v v1 x (by omega) he
    obtain ⟨hl, hrw⟩ := ih
    constructor
    · intro p hp1 hp2
      rw [hm]
      by_cases hp : p = v.finish
      · rw [if_pos hp]
        rfl
      · rw [if_neg hp]
        exact hl _ (by omega) (by omega)
    · intro p hp1 hp2
      rw [hm, if_neg (by omega)]
      exact hrw _ (by omega) (by omega)
  | pop_back v hr hne ih =>
    have hv := reachable_valid v hr
    obtain ⟨ha, hb, hc⟩ := hv
    obtain ⟨hl, hrw⟩ := ih
    have hlt : v.start ≠ v.finish := by simpa [empty] using hne
    have hmem : ∀ q, v.pop_back.heap.mem q = if q = v.finish - 1 then none else v.heap.mem q :=
      fun _ => rfl
    constructor
    · intro p hp1 hp2
      have hp1b : v.start ≤ p := hp1
      have hp2b : p < v.finish - 1 := hp2
      rw [hmem, if_neg (by omega)]
      exact hl _ hp1b (by omega)
    · intro p hp1 hp2
      have hp1b : v.finish - 1 ≤ p := hp1
      have hp2b : p < v.cp_first := hp2
      rw [hmem]
      by_cases hp : p = v.finish - 1
      · rw [if_pos hp]
      · rw [if_neg hp]
        exact hrw _ (by omega) hp2b
  | erase v first last hr h1 h2 h3 ih =>
    exact erase_livezone v first last (reachable_valid v hr) ih h1 h2 h3
  | erase_at v position hr h1 h2 ih =>
    exact erase_at_livezone v position (reachable_valid v hr) ih h1 h2
  | clear v hr ih =>
    have hv := reachable_valid v hr
    exact erase_livezone v v.start v.finish hv ih (le_refl _) hv.1 (le_refl _)

theorem nodup_destroy_range (b n : Nat) :
    ((List.range n).map (fun t => AllocCall.destroy (b + t))).Nodup := by
  apply List.Nodup.map _ (List.nodup_range n)
  intro x y hxy
  simp only [AllocCall.destroy.injEq] at hxy
  omega

theorem erase_at_eq_erase (v : Vector T) (position : Nat) (hp : position < v.finish) :
    v.erase_at position = v.erase position (position + 1) := by
  have e1 : ptr_sub v.finish (ptrdiff (position + 1) position) = v.finish - 1 := by
    unfold ptr_sub ptrdiff
    omega
  have e2 : position + (v.finish - (position + 1)) = v.finish - 1 := by omega
  have e3 : v.finish - (v.finish - 1) = 1 := by omega
  simp only [erase, erase_at, destroy, std_copy]
  rw [e1, e2, e3]
  by_cases h : position + 1 = v.finish
  · have e4 : v.finish - (position + 1) = 0 := by omega
    simp only [h, ne_eq, not_true_eq_false, if_false]
    rw [show v.finish - v.finish = 0 by omega]
    rfl
  · simp only [ne_eq, h, not_false_eq_true, if_true]
    rfl

theorem erase_same (v : Vector T) (p : Nat) : v.erase p p = (v, p) := by
  have e1 : ptr_sub v.finish (ptrdiff p p) = v.finish := by
    unfold ptr_sub ptrdiff
    omega
  have e2 : v.finish - (p + (v.finish - p)) = 0 := by omega
  have e3 : copy_loop v.heap.mem (v.finish - p) p p = v.heap.mem := by
    funext q
    rw [copy_loop_apply _ _ _ _ (le_refl _)]
    split
    · congr 1
      omega
    · rfl
  simp only [erase, destroy, std_copy]
  rw [e1, e2, e3]
  rfl

theorem clear_finish (v : Vector T) : v.clear.finish = v.start := by
  show ptr_sub v.finish (ptrdiff v.finish v.start) = v.start
  unfold ptr_sub ptrdiff
  omega

/-! ## The claims -/

/-- C1: on a valid vector holding the sequence `s`, `erase(begin()+i, begin()+j)`
with `i ≤ j ≤ size()` leaves the sequence `s[0..i) ++ s[j..N)`: exactly `j - i`
elements are removed, the others keep their order, `size()` decreases by
exactly `j - i`, and the returned cursor is `first`. -/
theorem erase_range_spec (v : Vector T) (s : List T) (i j : Nat)
    (hv : v.Valid) (hs : v.Holds s) (hij : i ≤ j) (hj : j ≤ s.length) :
    (v.erase (v.begin + i) (v.begin + j)).1.Holds (s.take i ++ s.drop j) ∧
    (s.take i ++ s.drop j).length + (j - i) = s.length ∧
    (v.erase (v.begin + i) (v.begin + j)).1.size + (j - i) = v.size ∧
    (v.erase (v.begin + i) (v.begin + j)).1.size = s.length - (j - i) ∧
    (v.erase (v.begin + i) (v.begin + j)).2 = v.begin + i := by
  have hN := ((holds_iff v s).1 hs).1
  have hel := ((holds_iff v s).1 hs).2
  have hsz := size_eq v hv
  obtain ⟨h1, h2, h3⟩ := hv
  have hfin : (v.erase (v.begin + i) (v.begin + j)).1.finish = v.finish - (j - i) := by
    rw [erase_finish _ _ _ (by omega) (by unfold begin; omega)]
    unfold begin
    omega
  have hval : (v.erase (v.begin + i) (v.begin + j)).1.Valid := by
    refine ⟨?_, ?_, ?_⟩
    · rw [hfin]
      show v.start ≤ _
      omega
    · rw [hfin]
      show _ ≤ v.cp_first
      omega
    · exact h3
  have hsize : (v.erase (v.begin + i) (v.begin + j)).1.size = s.length - (j - i) := by
    rw [size_eq _ hval, hfin]
    show v.finish - (j - i) - v.start = _
    omega
  have hlen : (s.take i ++ s.drop j).length = s.length - (j - i) := by
    simp only [List.length_append, List.length_take, List.length_drop]
    omega
  refine ⟨?_, by omega, by omega, hsize, rfl⟩
  rw [holds_iff]
  refine ⟨by omega, ?_⟩
  intro k hk
  rw [hlen] at hk
  show (v.erase (v.begin + i) (v.begin + j)).1.heap.mem (v.start + k) = _
  rw [erase_mem _ _ _ (by omega)]
  unfold begin
  rw [if_neg (by omega)]
  by_cases hki : k < i
  · rw [if_neg (by omega), hel k (by omega), List.getElem?_append_left (by simp; omega),
      List.getElem?_take_of_lt hki]
  · rw [if_pos (by omega), List.getElem?_append_right (by simp; omega), List.getElem?_drop]
    have e1 : v.start + k - (v.start + i) + (v.start + j) = v.start + (j + (k - i)) := by omega
    rw [e1, hel _ (by omega)]
    congr 1
    simp only [List.length_take]
    omega

/-- Witness of C1: `[1,2,3,4,5]` with `i = 1`, `j = 3` gives `[1,4,5]`, size 3. -/
theorem erase_range_spec_witness :
    sample5.Valid ∧ sample5.Holds [1, 2, 3, 4, 5] ∧
    ((sample5.erase 101 103).1.Holds [1, 4, 5] ∧
     ([1, 4, 5] : List Nat).length + 2 = 5 ∧
     (sample5.erase 101 103).1.size + 2 = sample5.size ∧
     (sample5.erase 101 103).1.size = 3 ∧
     (sample5.erase 101 103).2 = 101) :=
  ⟨by unfold Valid; decide, by unfold Holds; decide,
    erase_range_spec sample5 [1, 2, 3, 4, 5] 1 3 (by unfold Valid; decide)
      (by unfold Holds; decide) (by decide) (by decide)⟩

/-- C2: on a valid vector holding the sequence `s` of size `N ≥ 1`,
`erase(begin()+i)` with `i < N` leaves `s` with the element at index `i`
removed, the later elements one slot to the left in the same order; `size()`
becomes `N - 1` and the returned cursor is the removal point. -/
theorem erase_at_spec (v : Vector T) (s : List T) (i : Nat)
    (hv : v.Valid) (hs : v.Holds s) (hi : i < s.length) :
    (v.erase_at (v.begin + i)).1.Holds (s.eraseIdx i) ∧
    (∀ k, k < i → (v.erase_at (v.begin + i)).1.subscript k = s[k]?) ∧
    (∀ k, i ≤ k → k + 1 < s.length →
      (v.erase_at (v.begin + i)).1.subscript k = s[k + 1]?) ∧
    (v.erase_at (v.begin + i)).1.size = s.length - 1 ∧
    (v.erase_at (v.begin + i)).2 = v.begin + i := by
  have hN := ((holds_iff v s).1 hs).1
  have hel := ((holds_iff v s).1 hs).2
  have hsz := size_eq v hv
  obtain ⟨h1, h2, h3⟩ := hv
  have hfin : (v.erase_at (v.begin + i)).1.finish = v.finish - 1 := by
    simp only [erase_at]
    split <;> rfl
  have hstart : (v.erase_at (v.begin + i)).1.start = v.start := by
    simp only [erase_at]
    split <;> rfl
  have hcp : (v.erase_at (v.begin + i)).1.cp_first = v.cp_first := by
    simp only [erase_at]
    split <;> rfl
  have hval : (v.erase_at (v.begin + i)).1.Valid := by
    refine ⟨?_, ?_, ?_⟩
    · rw [hfin, hstart]
      omega
    · rw [hfin, hcp]
      omega
    · rw [hstart, hcp]
      exact h3
  have hsize : (v.erase_at (v.begin + i)).1.size = s.length - 1 := by
    rw [size_eq _ hval, hfin, hstart]
    omega
  have hlow : ∀ k, k < i → (v.erase_at (v.begin + i)).1.subscript k = s[k]? := by
    intro k hk
    show (v.erase_at (v.begin + i)).1.heap.mem ((v.erase_at (v.begin + i)).1.begin + k) = _
    have hstart2 : (v.erase_at (v.start + i)).1.start = v.start := hstart
    unfold begin
    rw [hstart2, erase_at_mem, if_neg (by omega), if_neg (by omega), hel k (by omega)]
  have hhigh : ∀ k, i ≤ k → k + 1 < s.length →
      (v.erase_at (v.begin + i)).1.subscript k = s[k + 1]? := by
    intro k hk hk2
    show (v.erase_at (v.begin + i)).1.heap.mem ((v.erase_at (v.begin + i)).1.begin + k) = _
    have hstart2 : (v.erase_at (v.start + i)).1.start = v.start := hstart
    unfold begin
    rw [hstart2, erase_at_mem, if_neg (by omega), if_pos (by omega)]
    exact hel (k + 1) hk2
  refine ⟨?_, hlow, hhigh, hsize, rfl⟩
  rw [holds_iff]
  refine ⟨by rw [hsize, List.length_eraseIdx, if_pos hi], ?_⟩
  intro k hk
  rw [List.length_eraseIdx, if_pos hi] at hk
  rw [List.getElem?_eraseIdx]
  have e := hstart
  by_cases hki : k < i
  · rw [if_pos hki, ← hlow k hki]
    rfl
  · rw [if_neg hki, ← hhigh k (by omega) (by omega)]
    rfl

/-- Witness of C2: erasing index 1 of `[1,2,3,4,5]` gives `[1,3,4,5]`. -/
theorem erase_at_spec_witness :
    sample5.Valid ∧ sample5.Holds [1, 2, 3, 4, 5] ∧
    (sample5.erase_at 101).1.Holds [1, 3, 4, 5] ∧
    (sample5.erase_at 101).1.size = 4 ∧
    (sample5.erase_at 101).2 = 101 :=
  have h := erase_at_spec sample5 [1, 2, 3, 4, 5] 1 (by unfold Valid; decide)
    (by unfold Holds; decide) (by decide)
  ⟨by unfold Valid; decide, by unfold Holds; decide, h.1, h.2.2.2.1, h.2.2.2.2⟩

/-- C3: on a valid vector with `size() < capacity()` holding the sequence `s`,
`push_back(x)`, when the copy constructor of the element does not throw,
returns and leaves the sequence `s ++ [x]`: `size()` increases by exactly 1,
the previous elements are unchanged, and `begin()` and `capacity()` are
unchanged (no reallocation: the heap gets no `allocate` and no `deallocate`
call, only the `construct` at the old `finish`). -/
theorem push_back_spec (env : Env T) (v : Vector T) (s : List T) (x : T)
    (hv : v.Valid) (hs : v.Holds s) (hcap : v.size < v.capacity)
    (hc : env.copyThrows v.finish = false) :
    ∃ v1, v.push_back env x = .ok v1 ∧ v1.Holds (s ++ [x]) ∧ v1.size = v.size + 1 ∧
      (∀ k, k < v.size → v1.subscript k = v.subscript k) ∧
      v1.begin = v.begin ∧ v1.capacity = v.capacity ∧
      v1.heap.calls = v.heap.calls ++ [AllocCall.construct v.finish] := by
  have hsz := size_eq v hv
  have hcp := capacity_eq v hv
  have hlt : v.finish < v.cp_first := by
    obtain ⟨ha, hb, _⟩ := hv
    omega
  refine ⟨_, push_back_ok env v x (by omega) hc, ?_⟩
  obtain ⟨hval, hh⟩ := push_back_holds v _ s x hv hs hlt rfl
  refine ⟨hh, ?_, ?_, rfl, rfl, rfl⟩
  · rw [size_eq _ hval, hsz]
    show v.finish + 1 - v.start = _
    obtain ⟨ha, _, _⟩ := hv
    omega
  · intro k hk
    show (if v.start + k = v.finish then some x else v.heap.mem (v.start + k)) = _
    rw [if_neg (by omega)]
    rfl

/-- Witness of C3: `push_back(6)` on `[1,2,3,4,5]` of capacity 8. -/
theorem push_back_spec_witness :
    sample5.Valid ∧ sample5.Holds [1, 2, 3, 4, 5] ∧ sample5.size < sample5.capacity ∧
    ∃ v1, sample5.push_back sampleEnv 6 = .ok v1 ∧ v1.Holds [1, 2, 3, 4, 5, 6] ∧
      v1.size = sample5.size + 1 ∧ v1.capacity = sample5.capacity :=
  have h := push_back_spec sampleEnv sample5 [1, 2, 3, 4, 5] 6 (by unfold Valid; decide)
    (by unfold Holds; decide) (by decide) rfl
  ⟨by unfold Valid; decide, by unfold Holds; decide, by decide,
    h.elim fun v1 h1 => ⟨v1, h1.1, h1.2.1, h1.2.2.1, h1.2.2.2.2.2.1⟩⟩

/-- C4: on a valid vector holding `s` whose spare capacity is at least `N`,
`N` consecutive `push_back` calls with the values `xs`, when no copy
constructor throws, return and leave `s ++ xs` (the old elements, then the
new ones in call order) with `size()` equal to the old size plus `N`; when
the vector was empty, `size() == N` and the elements are exactly `xs`. -/
theorem push_back_all_spec (env : Env T) (xs : List T) :
    ∀ (v : Vector T) (s : List T), v.Valid → v.Holds s →
      v.size + xs.length ≤ v.capacity →
      (∀ p, v.finish ≤ p → p < v.finish + xs.length → env.copyThrows p = false) →
      ∃ v1, v.push_back_all env xs = .ok v1 ∧ v1.Valid ∧ v1.Holds (s ++ xs) ∧
        v1.size = v.size + xs.length ∧ v1.begin = v.begin ∧ v1.capacity = v.capacity ∧
        (v.size = 0 → v1.Holds xs ∧ v1.size = xs.length) := by
  induction xs with
  | nil =>
    intro v s hv hs _ _
    refine ⟨v, rfl, hv, by simpa using hs, rfl, rfl, rfl, ?_⟩
    intro h0
    refine ⟨?_, h0⟩
    rw [holds_iff]
    exact ⟨h0, by intro k hk; simp at hk⟩
  | cons x xs ih =>
    intro v s hv hs hcap hc
    have hsz := size_eq v hv
    have hcp := capacity_eq v hv
    simp only [List.length_cons] at hcap hc
    have hlt : v.finish < v.cp_first := by
      obtain ⟨ha, hb, _⟩ := hv
      omega
    obtain ⟨hval, hh⟩ := push_back_holds v _ s x hv hs hlt rfl
    have hsz1 := size_eq _ hval
    have hcp1 := capacity_eq _ hval
    obtain ⟨v2, e2, hv2, hh2, hs2, hb2, hc2, _⟩ := ih _ (s ++ [x]) hval hh
      (by
        rw [hsz1, hcp1]
        show v.finish + 1 - v.start + xs.length ≤ v.cp_first - v.start
        obtain ⟨ha, _, _⟩ := hv
        omega)
      (by
        intro p hp1 hp2
        apply hc p
        · show v.finish ≤ p
          have : v.finish + 1 ≤ p := hp1
          omega
        · have : p < v.finish + 1 + xs.length := hp2
          omega)
    have hsize : v2.size = v.size + (xs.length + 1) := by
      rw [hs2, hsz1, hsz]
      show v.finish + 1 - v.start + xs.length = _
      obtain ⟨ha, _, _⟩ := hv
      omega
    have hall : v2.Holds (s ++ x :: xs) := by simpa using hh2
    refine ⟨v2, ?_, hv2, hall, by simpa using hsize, hb2, hc2, ?_⟩
    · rw [push_back_all, push_back_ok env v x (by omega) (hc _ (le_refl _) (by omega))]
      exact e2
    · intro h0
      have hnil : s = [] := by
        have := ((holds_iff v s).1 hs).1
        exact List.length_eq_zero.1 (by omega)
      subst hnil
      refine ⟨by simpa using hall, ?_⟩
      simp only [List.length_cons]
      omega

/-- Witness of C4: three `push_back` calls on `[1,2,3,4,5]` of capacity 8. -/
theorem push_back_all_spec_witness :
    sample5.Valid ∧ sample5.Holds [1, 2, 3, 4, 5] ∧ sample5.size + 3 ≤ sample5.capacity ∧
    ∃ v1, sample5.push_back_all sampleEnv [6, 7, 8] = .ok v1 ∧
      v1.Holds [1, 2, 3, 4, 5, 6, 7, 8] ∧ v1.size = sample5.size + 3 :=
  have h := push_back_all_spec sampleEnv [6, 7, 8] sample5 [1, 2, 3, 4, 5]
    (by unfold Valid; decide) (by unfold Holds; decide) (by decide) (fun _ _ _ => rfl)
  ⟨by unfold Valid; decide, by unfold Holds; decide, by decide,
    h.elim fun v1 h1 => ⟨v1, h1.1, h1.2.2.1, h1.2.2.2.1⟩⟩

/-- C5: on a valid non-empty vector holding the sequence `s` of size `N`,
`pop_back()` leaves `s[0..N-1)`: `size()` decreases by exactly 1, the first
`N - 1` elements are unchanged, the former last element is destroyed exactly
once (the call adds to the allocator log the one call `destroy` on its slot,
which is raw afterwards), and `capacity()` is unchanged. -/
theorem pop_back_spec (v : Vector T) (s : List T)
    (hv : v.Valid) (hs : v.Holds s) (hne : v.empty = false) :
    v.pop_back.Holds s.dropLast ∧ v.pop_back.size + 1 = v.size ∧
    (∀ k, k + 1 < v.size → v.pop_back.subscript k = v.subscript k) ∧
    v.pop_back.heap.calls = v.heap.calls ++ [AllocCall.destroy (v.begin + (v.size - 1))] ∧
    v.pop_back.heap.mem (v.begin + (v.size - 1)) = none ∧
    v.pop_back.capacity = v.capacity := by
  have hN := ((holds_iff v s).1 hs).1
  have hel := ((holds_iff v s).1 hs).2
  have hsz := size_eq v hv
  obtain ⟨ha, hb, hc⟩ := hv
  have hlt : v.start < v.finish := by
    have : v.start ≠ v.finish := by simpa [empty] using hne
    omega
  have hval : v.pop_back.Valid :=
    ⟨by show v.start ≤ v.finish - 1; omega, by show v.finish - 1 ≤ v.cp_first; omega, hc⟩
  have hsz1 : v.pop_back.size = v.finish - 1 - v.start := size_eq _ hval
  have hslot : v.begin + (v.size - 1) = v.finish - 1 := by
    unfold begin
    omega
  have hmem : ∀ q, v.pop_back.heap.mem q = if q = v.finish - 1 then none else v.heap.mem q :=
    fun _ => rfl
  refine ⟨?_, by omega, ?_, by rw [hslot]; rfl, by rw [hslot, hmem, if_pos rfl], rfl⟩
  · rw [holds_iff, List.length_dropLast]
    refine ⟨by omega, ?_⟩
    intro k hk
    show v.pop_back.heap.mem (v.start + k) = _
    rw [hmem, if_neg (by omega), hel k (by omega), List.dropLast_eq_take,
      List.getElem?_take_of_lt (by omega)]
  · intro k hk
    show v.pop_back.heap.mem (v.start + k) = _
    rw [hmem, if_neg (by omega)]
    rfl

/-- Witness of C5: `pop_back()` on `[1,2,3,4,5]` leaves `[1,2,3,4]`. -/
theorem pop_back_spec_witness :
    sample5.Valid ∧ sample5.Holds [1, 2, 3, 4, 5] ∧ sample5.empty = false ∧
    sample5.pop_back.Holds [1, 2, 3, 4] ∧ sample5.pop_back.size + 1 = sample5.size ∧
    sample5.pop_back.heap.calls = [AllocCall.destroy 104] ∧
    sample5.pop_back.capacity = sample5.capacity :=
  have h := pop_back_spec sample5 [1, 2, 3, 4, 5] (by unfold Valid; decide)
    (by unfold Holds; decide) (by decide)
  ⟨by unfold Valid; decide, by unfold Holds; decide, by decide, h.1, h.2.1, h.2.2.2.1,
    h.2.2.2.2.2⟩

/-- C6: for every vector, `clear()` leaves `size() == 0` and `empty()` true,
destroys every previously live element (each slot of the old `[start, finish)`
is raw afterwards, and the call adds to the allocator log exactly one
`destroy` for each of these slots, in forward order), and leaves `capacity()`
unchanged. -/
theorem clear_spec (v : Vector T) :
    v.clear.size = 0 ∧ v.clear.empty = true ∧ v.clear.capacity = v.capacity ∧
    (∀ p, v.start ≤ p → p < v.finish → v.clear.heap.mem p = none) ∧
    v.clear.heap.calls =
      v.heap.calls ++ (List.range (v.finish - v.start)).map
        (fun k => AllocCall.destroy (v.start + k)) := by
  have hfin : v.clear.finish = v.start := by
    show ptr_sub v.finish (ptrdiff v.finish v.start) = v.start
    unfold ptr_sub ptrdiff
    omega
  have hstart : v.clear.start = v.start := rfl
  refine ⟨?_, ?_, rfl, ?_, ?_⟩
  · unfold size cend cbegin
    rw [hfin, hstart]
    simp [size_type, ptrdiff]
  · unfold empty
    rw [hfin, hstart]
    simp
  · intro p hp1 hp2
    unfold clear begin end_
    rw [erase_mem _ _ _ (le_of_lt (lt_of_le_of_lt hp1 hp2)), if_pos (by omega)]
  · unfold clear begin end_
    rw [erase_calls]
    simp

/-- An instance of C6: `clear()` on `[1,2,3,4,5]` of capacity 8. -/
theorem clear_spec_witness :
    sample5.clear.size = 0 ∧ sample5.clear.empty = true ∧ sample5.clear.capacity = 8 ∧
    sample5.clear.heap.calls = [AllocCall.destroy 100, AllocCall.destroy 101,
      AllocCall.destroy 102, AllocCall.destroy 103, AllocCall.destroy 104] :=
  have h := clear_spec sample5
  ⟨h.1, h.2.1, h.2.2.1, h.2.2.2.2⟩

/-- C7: for every count `n` (a `size_type`) and value `v`, when the allocation
succeeds (the allocator answers `p`) and no element construction throws, the
fill constructor returns a vector with `size() == n`, `capacity() == n`, the
allocator asked once, for exactly `n` elements, and every element at index
`0 .. n-1` equal to `v`. -/
theorem ctor_fill_spec (env : Env T) (h : Heap T) (n p : Nat) (value : T)
    (hn : n < 2 ^ SIZE_BITS) (ha : env.allocate n = some p)
    (hc : ∀ q, p ≤ q → q < p + n → env.copyThrows q = false) :
    ∃ v, ctor_fill env h n value = .ok v ∧ v.size = n ∧ v.capacity = n ∧
      (∀ k, k < n → v.subscript k = some value) ∧ v.Holds (List.replicate n value) ∧
      v.begin = p ∧ v.heap.calls = h.calls ++ [AllocCall.allocate n (some p)] := by
  refine ⟨_, ctor_fill_ok env h n p value ha hc, ?_⟩
  have hval : (Vector.mk p (p + n) (p + n)
      ⟨fun q => if p ≤ q ∧ q < p + n then some value else h.mem q,
        h.calls ++ [AllocCall.allocate n (some p)]⟩).Valid :=
    ⟨by show p ≤ p + n; omega, le_refl _, by show p + n - p < _; omega⟩
  have hsize := size_eq _ hval
  have hcap := capacity_eq _ hval
  have hsub : ∀ k, k < n → (Vector.mk p (p + n) (p + n)
      ⟨fun q => if p ≤ q ∧ q < p + n then some value else h.mem q,
        h.calls ++ [AllocCall.allocate n (some p)]⟩).subscript k = some value := by
    intro k hk
    show (if p ≤ p + k ∧ p + k < p + n then some value else h.mem (p + k)) = _
    rw [if_pos (by omega)]
  refine ⟨by rw [hsize]; show p + n - p = n; omega, by rw [hcap]; show p + n - p = n; omega,
    hsub, ?_, rfl, rfl⟩
  rw [holds_iff, List.length_replicate]
  refine ⟨by rw [hsize]; show p + n - p = n; omega, ?_⟩
  intro k hk
  rw [List.getElem?_replicate, if_pos hk]
  exact hsub k hk

/-- Witness of C7: `Vector(3, 7)` in the heap of `sample5`, the allocator
answering address 200. -/
theorem ctor_fill_spec_witness :
    ∃ v, ctor_fill sampleEnv sample5.heap 3 7 = .ok v ∧ v.size = 3 ∧ v.capacity = 3 ∧
      v.Holds [7, 7, 7] :=
  (ctor_fill_spec sampleEnv sample5.heap 3 200 7 (by decide) rfl (fun _ _ _ => rfl)).elim
    fun v hv => ⟨v, hv.1, hv.2.1, hv.2.2.1, hv.2.2.2.2.1⟩

/-- C8: a default-constructed vector is empty and unallocated: `start`,
`finish` and `cp_.first()` are null, `size() == 0`, `capacity() == 0`,
`empty()` is true, and the heap, with its log of allocator calls, is as it
was: no allocation request is made. -/
theorem ctor_default_spec (h : Heap T) :
    (ctor_default h).start = nullptr ∧ (ctor_default h).finish = nullptr ∧
    (ctor_default h).cp_first = nullptr ∧ (ctor_default h).size = 0 ∧
    (ctor_default h).capacity = 0 ∧ (ctor_default h).empty = true ∧
    (ctor_default h).heap = h ∧
    (∀ n r, AllocCall.allocate n r ∈ (ctor_default h).heap.calls →
      AllocCall.allocate n r ∈ h.calls) := by
  refine ⟨rfl, rfl, rfl, ?_, ?_, rfl, rfl, fun _ _ hm => hm⟩
  · simp [size, cend, cbegin, ctor_default, size_type, ptrdiff]
  · simp [capacity, begin, ctor_default, size_type, ptrdiff]

/-- C9: in every state reached from the default or the fill constructor by
`push_back` with spare capacity, `pop_back` on a non-empty vector, `erase`
with positions inside the live range and `clear`, `start ≤ finish ≤
cp_.first()` holds; hence `size() ≤ capacity()`, and `empty()` is true exactly
when `size() == 0`. -/
theorem reachable_invariant (v : Vector T) (hr : Reachable v) :
    v.start ≤ v.finish ∧ v.finish ≤ v.cp_first ∧ v.size ≤ v.capacity ∧
    (v.empty = true ↔ v.size = 0) := by
  have hv := reachable_valid v hr
  have hsz := size_eq v hv
  have hcp := capacity_eq v hv
  obtain ⟨ha, hb, hc⟩ := hv
  refine ⟨ha, hb, by omega, ?_⟩
  unfold empty
  rw [hsz, beq_iff_eq]
  omega

/-- Witness of C9: the state after `Vector(3, 7)`, `pop_back()`,
`push_back(9)`, `erase(begin())` and `clear()`. -/
theorem reachable_invariant_witness :
    ∃ v : Vector Nat, Reachable v ∧ v.start = 200 ∧ v.finish = 200 ∧ v.cp_first = 203 ∧
      v.size ≤ v.capacity ∧ (v.empty = true ↔ v.size = 0) :=
  have e0 : ctor_fill sampleEnv sample5.heap 3 7 = .ok
      (Vector.mk 200 203 203
        ⟨fun q => if 200 ≤ q ∧ q < 200 + 3 then some 7 else sample5.heap.mem q,
          sample5.heap.calls ++ [AllocCall.allocate 3 (some 200)]⟩) :=
    ctor_fill_ok sampleEnv sample5.heap 3 200 7 rfl (fun _ _ _ => rfl)
  have r0 := Reachable.ctor_fill sampleEnv sample5.heap 3 7 _ (by decide) e0
  have r1 := Reachable.pop_back _ r0 (by decide)
  have r2 := Reachable.push_back sampleEnv _ 9 _ r1 (by decide)
    (push_back_ok sampleEnv _ 9 (by decide) rfl)
  have r3 := Reachable.erase_at _ 200 r2 (by decide) (by decide)
  have r4 := Reachable.clear _ r3
  have h := reachable_invariant _ r4
  ⟨_, r4, rfl, rfl, rfl, h.2.2.1, h.2.2.2⟩

/-- C10: on a valid vector, the traversal from `rbegin()` to `rend()` ends
after `size()` increments and reads the live elements from the last to the
first: the sequence read through the reverse cursors is the reverse of the
sequence read from `begin()` to `end()`, which is the sequence of the
elements at the indices `0 .. size()-1`, and both have length `size()`. -/
theorem reverse_traversal_spec (v : Vector T) (fuel : Nat) (hv : v.Valid)
    (hf : v.size ≤ fuel) :
    ∃ fw rv, read_forward v.heap v.end_ fuel v.begin = some fw ∧
      read_reverse v.heap v.rend fuel v.rbegin = some rv ∧
      rv = fw.reverse ∧ fw = v.contents ∧ fw.length = v.size ∧ rv.length = v.size := by
  have hsz := size_eq v hv
  obtain ⟨ha, hb, hc⟩ := hv
  have hend : v.end_ = v.begin + v.size := by
    unfold end_ begin
    omega
  refine ⟨_, _, ?_, ?_, rfl, rfl, ?_, ?_⟩
  · rw [hend]
    exact read_forward_range v.heap v.size fuel v.begin hf
  · unfold rbegin rend
    rw [hend]
    exact read_reverse_range v.heap v.begin v.size fuel hf
  · simp [contents]
  · simp [contents]

/-- Witness of C10: the reverse traversal of `[1,2,3,4,5]` reads
`5,4,3,2,1`. -/
theorem reverse_traversal_spec_witness :
    sample5.Valid ∧ sample5.size ≤ 5 ∧
    ∃ fw rv, read_forward sample5.heap sample5.end_ 5 sample5.begin = some fw ∧
      read_reverse sample5.heap sample5.rend 5 sample5.rbegin = some rv ∧
      rv = fw.reverse ∧ fw = sample5.contents ∧ fw.length = sample5.size ∧
      rv.length = sample5.size :=
  ⟨by unfold Valid; decide, by decide,
    reverse_traversal_spec sample5 5 (by unfold Valid; decide) (by decide)⟩

/-- C11: `erase` never reallocates and never touches anything before the
erase point: for `erase(first, last)` with `first ≤ last` and for
`erase(position)` with `position < end()`, so for every valid call, `begin()`,
`cp_.first()` and `capacity()` are unchanged, the only allocator calls made
are `destroy` calls, and every slot strictly before the erase point keeps its
content, so every element at an index before the erase point stays in the
same slot with the same value. -/
theorem erase_frame (v : Vector T) (first last position : Nat)
    (h2 : first ≤ last) (h5 : position < v.end_) :
    ((v.erase first last).1.begin = v.begin ∧
      (v.erase first last).1.cp_first = v.cp_first ∧
      (v.erase first last).1.capacity = v.capacity ∧
      (∀ q, q < first → (v.erase first last).1.heap.mem q = v.heap.mem q) ∧
      (∀ k, v.begin + k < first → (v.erase first last).1.subscript k = v.subscript k) ∧
      (∃ l, (v.erase first last).1.heap.calls = v.heap.calls ++ l ∧
        ∀ c, c ∈ l → ∃ p, c = AllocCall.destroy p)) ∧
    ((v.erase_at position).1.begin = v.begin ∧
      (v.erase_at position).1.cp_first = v.cp_first ∧
      (v.erase_at position).1.capacity = v.capacity ∧
      (∀ q, q < position → (v.erase_at position).1.heap.mem q = v.heap.mem q) ∧
      (∀ k, v.begin + k < position →
        (v.erase_at position).1.subscript k = v.subscript k) ∧
      (∃ l, (v.erase_at position).1.heap.calls = v.heap.calls ++ l ∧
        ∀ c, c ∈ l → ∃ p, c = AllocCall.destroy p)) := by
  have h5b : position < v.finish := h5
  have hm1 : ∀ q, q < first → (v.erase first last).1.heap.mem q = v.heap.mem q := by
    intro q hq
    rw [erase_mem _ _ _ h2, if_neg (by omega), if_neg (by omega)]
  have hm2 : ∀ q, q < position → (v.erase_at position).1.heap.mem q = v.heap.mem q := by
    intro q hq
    rw [erase_at_mem, if_neg (by omega), if_neg (by omega)]
  obtain ⟨f1, _, f3⟩ := erase_at_fields v position
  refine ⟨⟨rfl, rfl, rfl, hm1, fun k hk => hm1 _ hk, ⟨_, erase_calls v first last, ?_⟩⟩,
    ⟨f1, f3, ?_, hm2, ?_, ⟨_, erase_at_calls v position, ?_⟩⟩⟩
  · intro c hc
    obtain ⟨t, _, rfl⟩ := List.mem_map.1 hc
    exact ⟨_, rfl⟩
  · unfold capacity begin
    rw [f1, f3]
  · intro k hk
    unfold subscript begin
    rw [f1]
    exact hm2 _ hk
  · intro c hc
    rw [List.mem_singleton] at hc
    exact ⟨_, hc⟩

/-- Witness of C11: `erase(begin()+2, begin()+4)` and `erase(begin()+2)` on
`[1,2,3,4,5]` leave the slots at 100 and 101 and the capacity as they
were. -/
theorem erase_frame_witness :
    (sample5.erase 102 104).1.begin = 100 ∧ (sample5.erase 102 104).1.capacity = 8 ∧
    (sample5.erase 102 104).1.subscript 1 = some 2 ∧
    (sample5.erase_at 102).1.begin = 100 ∧ (sample5.erase_at 102).1.capacity = 8 ∧
    (sample5.erase_at 102).1.subscript 1 = some 2 :=
  have h := erase_frame sample5 102 104 102 (by decide) (by decide)
  ⟨h.1.1, h.1.2.2.1, h.1.2.2.2.2.1 1 (by decide), h.2.1, h.2.2.2.1,
    h.2.2.2.2.2.1 1 (by decide)⟩

/-- C12: the destructor destroys each slot of `[start, finish)` once, in
forward order (index 0 first), and only then, when `start` is not null,
releases the buffer with the single call `deallocate(start, capacity())`;
every slot of `[start, finish)` is raw afterwards; when `start` is null, as in
a default-constructed vector where `finish` is null too, no element is
destroyed and no `deallocate` call is made. -/
theorem dtor_spec (v : Vector T) :
    (v.start ≠ nullptr →
      v.dtor.calls = v.heap.calls ++
        (List.range (v.finish - v.start)).map (fun k => AllocCall.destroy (v.start + k)) ++
        [AllocCall.deallocate v.start v.capacity]) ∧
    (∀ p, v.start ≤ p → p < v.finish → v.dtor.mem p = none) ∧
    (∀ p, ¬ (v.start ≤ p ∧ p < v.finish) → v.dtor.mem p = v.heap.mem p) ∧
    (v.start = nullptr → v.finish = nullptr → v.dtor = v.heap) ∧
    (∀ h : Heap T, (ctor_default h).dtor = h) := by
  have hnull : ∀ w : Vector T, w.start = nullptr → w.finish = nullptr → w.dtor = w.heap := by
    intro w hs hf
    simp [dtor, deallocate, destroy, begin, end_, hs, hf, destroy_loop]
  refine ⟨?_, ?_, ?_, hnull v, fun h => hnull _ rfl rfl⟩
  · intro hs
    rw [dtor_calls, if_pos hs]
  · intro p hp1 hp2
    rw [dtor_mem, if_pos (by omega)]
  · intro p hp
    rw [dtor_mem, if_neg (by omega)]

/-- An instance of C12: the destructor of `[1,2,3,4,5]` at address 100 with
capacity 8. -/
theorem dtor_spec_witness :
    sample5.dtor.calls = [AllocCall.destroy 100, AllocCall.destroy 101,
      AllocCall.destroy 102, AllocCall.destroy 103, AllocCall.destroy 104,
      AllocCall.deallocate 100 8] :=
  (dtor_spec sample5).1 (by decide)

/-- C14: the live-zone invariant is kept by every operation of the header. In
every state reached from the default or the fill constructor by `push_back`
with spare capacity, `pop_back` on a non-empty vector, `erase` at valid
positions and `clear`, every slot of `[start, finish)` holds a constructed
element and every slot of `[finish, cp_.first())` is raw. From such a state
each operation destroys exactly the slots that leave the live range:
`pop_back` and `erase(position)` the one slot `finish - 1`,
`erase(first, last)` the `last - first` slots from the new `finish` on,
`clear` the slots of `[start, finish)`, `push_back` none (it constructs in a
raw slot). The destroyed slots are pairwise distinct, and each holds a
constructed element when the `destroy` calls start (after the elements were
shifted), so no slot is destroyed twice or destroyed while raw. -/
theorem live_zone_invariant (v : Vector T) (hr : Reachable v) :
    v.LiveZone ∧
    (v.empty = false →
      v.pop_back.LiveZone ∧ v.pop_back.finish = v.finish - 1 ∧
      v.pop_back.heap.calls = v.heap.calls ++ [AllocCall.destroy (v.finish - 1)] ∧
      (v.heap.mem (v.finish - 1)).isSome = true) ∧
    (∀ first last, v.begin ≤ first → first ≤ last → last ≤ v.end_ →
      (v.erase first last).1.LiveZone ∧
      (v.erase first last).1.finish = v.finish - (last - first) ∧
      (v.erase first last).1.heap.calls = v.heap.calls ++
        (List.range (last - first)).map
          (fun t => AllocCall.destroy (v.finish - (last - first) + t)) ∧
      ((List.range (last - first)).map
          (fun t => AllocCall.destroy (v.finish - (last - first) + t))).Nodup ∧
      (∀ t, t < last - first →
        ((std_copy v.heap last v.finish first).1.mem
          (v.finish - (last - first) + t)).isSome = true)) ∧
    (∀ position, v.begin ≤ position → position < v.end_ →
      (v.erase_at position).1.LiveZone ∧
      (v.erase_at position).1.finish = v.finish - 1 ∧
      (v.erase_at position).1.heap.calls =
        v.heap.calls ++ [AllocCall.destroy (v.finish - 1)] ∧
      ((std_copy v.heap (position + 1) v.finish position).1.mem (v.finish - 1)).isSome
        = true ∧
      (v.heap.mem (v.finish - 1)).isSome = true) ∧
    (v.clear.LiveZone ∧ v.clear.finish = v.start ∧
      v.clear.heap.calls = v.heap.calls ++
        (List.range (v.finish - v.start)).map (fun t => AllocCall.destroy (v.start + t))) ∧
    (∀ (env : Env T) (x : T) (v1 : Vector T), v.size < v.capacity →
      v.push_back env x = .ok v1 →
      v1.LiveZone ∧ v.heap.mem v.finish = none ∧
      v1.heap.calls = v.heap.calls ++ [AllocCall.construct v.finish]) := by
  have hv := reachable_valid v hr
  have hz := reachable_livezone v hr
  have hsz := size_eq v hv
  have hcp := capacity_eq v hv
  obtain ⟨ha, hb, hc⟩ := hv
  obtain ⟨hl, hrw⟩ := hz
  refine ⟨⟨hl, hrw⟩, ?_, ?_, ?_, ?_, ?_⟩
  · intro hne
    have hlt : v.start ≠ v.finish := by simpa [empty] using hne
    exact ⟨reachable_livezone _ (Reachable.pop_back v hr hne), rfl, rfl,
      hl _ (by omega) (by omega)⟩
  · intro first last h1 h2 h3
    have h1b : v.start ≤ first := h1
    have h3b : last ≤ v.finish := h3
    have hidx : first + (v.finish - last) = v.finish - (last - first) := by omega
    have hcnt : v.finish - (first + (v.finish - last)) = last - first := by omega
    refine ⟨reachable_livezone _ (Reachable.erase v first last hr h1 h2 h3),
      erase_finish v first last h2 (by omega), ?_, nodup_destroy_range _ _, ?_⟩
    · rw [erase_calls, hcnt, hidx]
    · intro t ht
      show (copy_loop v.heap.mem (v.finish - last) last first _).isSome = true
      rw [copy_loop_apply _ _ _ _ h2, if_neg (by omega)]
      exact hl _ (by omega) (by omega)
  · intro position h1 h2
    have h1b : v.start ≤ position := h1
    have h2b : position < v.finish := h2
    obtain ⟨_, f2, _⟩ := erase_at_fields v position
    refine ⟨reachable_livezone _ (Reachable.erase_at v position hr h1 h2), f2,
      erase_at_calls v position, ?_, hl _ (by omega) (by omega)⟩
    show (copy_loop v.heap.mem (v.finish - (position + 1)) (position + 1) position _).isSome
      = true
    rw [copy_loop_apply _ _ _ _ (by omega), if_neg (by omega)]
    exact hl _ (by omega) (by omega)
  · refine ⟨reachable_livezone _ (Reachable.clear v hr), ?_, ?_⟩
    · have := erase_finish v v.start v.finish ha (by omega)
      show (v.erase v.start v.finish).1.finish = v.start
      omega
    · show (v.erase v.start v.finish).1.heap.calls = _
      rw [erase_calls]
      simp
  · intro env x v1 hcap he
    obtain ⟨_, hcalls⟩ := push_back_inv_mem env v v1 x (by omega) he
    exact ⟨reachable_livezone _ (Reachable.push_back env v x v1 hr hcap he),
      hrw _ (le_refl _) (by omega), hcalls⟩

/-- Witness of C14: the state after `Vector(3, 7)` and `pop_back()`, which has
two live slots and one raw slot. -/
theorem live_zone_invariant_witness :
    ∃ v : Vector Nat, Reachable v ∧ v.start = 200 ∧ v.finish = 202 ∧ v.cp_first = 203 ∧
      v.LiveZone ∧ (v.erase_at 200).1.LiveZone ∧
      (v.erase_at 200).1.heap.calls = v.heap.calls ++ [AllocCall.destroy 201] :=
  have e0 : ctor_fill sampleEnv sample5.heap 3 7 = .ok
      (Vector.mk 200 203 203
        ⟨fun q => if 200 ≤ q ∧ q < 200 + 3 then some 7 else sample5.heap.mem q,
          sample5.heap.calls ++ [AllocCall.allocate 3 (some 200)]⟩) :=
    ctor_fill_ok sampleEnv sample5.heap 3 200 7 rfl (fun _ _ _ => rfl)
  have r0 := Reachable.ctor_fill sampleEnv sample5.heap 3 7 _ (by decide) e0
  have r1 := Reachable.pop_back _ r0 (by decide)
  have h := live_zone_invariant _ r1
  have h2 := h.2.2.2.1 200 (by decide) (by decide)
  ⟨_, r1, rfl, rfl, rfl, h.1, h2.1, h2.2.2.1⟩

/-- C15, the code at a failing input: `Vector(3, 7)` with the allocator
answering address 200 and the copy constructor throwing on the second
element. The failure leaves the constructor, the one slot built before it is
raw again, and the allocator log holds the `allocate` call and no
`deallocate` call: the buffer is not released. -/
theorem ctor_fill_throw_keeps_buffer :
    ∃ w, ctor_fill sampleThrowEnv sample5.heap 3 7 = .error (Failure.ConstructError, w) ∧
      w.heap.calls = [AllocCall.allocate 3 (some 200)] ∧
      (∀ p n, AllocCall.deallocate p n ∉ w.heap.calls) ∧
      w.heap.mem 200 = none ∧ w.heap.mem 201 = none ∧ w.heap.mem 202 = none :=
  ⟨_, rfl, rfl,
    by
      intro p n hm
      change AllocCall.deallocate p n ∈ [AllocCall.allocate 3 (some 200)] at hm
      simp at hm,
    rfl, rfl, rfl⟩

/-- C16: the two `erase` overloads agree. On a valid vector, for every
position `begin() + i` with `i < size()`, `erase(position)` and
`erase(position, position + 1)` give the same vector (same positions, same
content of every slot, same allocator log, so the same destroyed slot) and
return the same cursor; the case of the last element, where `erase(position)`
skips the copy, is included. -/
theorem erase_overloads_agree (v : Vector T) (i : Nat) (hv : v.Valid) (hi : i < v.size) :
    v.erase_at (v.begin + i) = v.erase (v.begin + i) (v.begin + i + 1) ∧
    (v.erase_at (v.begin + i)).1.heap.calls =
      v.heap.calls ++ [AllocCall.destroy (v.finish - 1)] ∧
    (v.erase (v.begin + i) (v.begin + i + 1)).1.heap.calls =
      v.heap.calls ++ [AllocCall.destroy (v.finish - 1)] ∧
    (v.erase_at (v.begin + i)).2 = v.begin + i ∧
    (v.erase (v.begin + i) (v.begin + i + 1)).2 = v.begin + i := by
  have hsz := size_eq v hv
  have hp : v.begin + i < v.finish := by
    unfold begin
    omega
  have he := erase_at_eq_erase v (v.begin + i) hp
  refine ⟨he, erase_at_calls v _, ?_, rfl, rfl⟩
  rw [← he]
  exact erase_at_calls v _

/-- Witness of C16: on `[1,2,3,4,5]`, at index 1 and at the last index 4. -/
theorem erase_overloads_agree_witness :
    sample5.Valid ∧ 1 < sample5.size ∧ 4 < sample5.size ∧
    sample5.erase_at 101 = sample5.erase 101 102 ∧
    sample5.erase_at 104 = sample5.erase 104 105 :=
  ⟨by unfold Valid; decide, by decide, by decide,
    (erase_overloads_agree sample5 1 (by unfold Valid; decide) (by decide)).1,
    (erase_overloads_agree sample5 4 (by unfold Valid; decide) (by decide)).1⟩

/-- C17: erasing an empty range changes nothing: for every vector and every
position `p`, `erase(p, p)` returns `p` and leaves the vector as it was, so
the element sequence, `size()`, `capacity()`, the content of every slot and
the allocator log are unchanged and no element is destroyed; consequently
`clear()` twice equals `clear()` once. -/
theorem erase_empty_range (v : Vector T) (p : Nat) :
    v.erase p p = (v, p) ∧
    (v.erase p p).1.contents = v.contents ∧ (v.erase p p).1.size = v.size ∧
    (v.erase p p).1.capacity = v.capacity ∧ (v.erase p p).1.heap.mem = v.heap.mem ∧
    (v.erase p p).1.heap.calls = v.heap.calls ∧ (v.erase p p).2 = p ∧
    v.clear.clear = v.clear := by
  have he := erase_same v p
  refine ⟨he, by rw [he], by rw [he], by rw [he], by rw [he], by rw [he], rfl, ?_⟩
  have hw : v.clear.end_ = v.clear.begin := clear_finish v
  show (v.clear.erase v.clear.begin v.clear.end_).1 = v.clear
  rw [hw, erase_same]

/-- C18: `push_back` is atomic on the no-growth path: on a valid vector with
`size() < capacity()`, when the copy constructor of the new element throws,
the failure leaves `push_back` and the vector is unchanged: same `start`,
`finish` and `cp_.first()`, same `size()` and `capacity()`, same elements,
same content of every slot, so the slot at `finish` is still raw when it was
raw before. -/
theorem push_back_throw_spec (env : Env T) (v : Vector T) (x : T)
    (hv : v.Valid) (hcap : v.size < v.capacity) (hc : env.copyThrows v.finish = true) :
    ∃ w, v.push_back env x = .error (Failure.ConstructError, w) ∧
      w.start = v.start ∧ w.finish = v.finish ∧ w.cp_first = v.cp_first ∧
      w.size = v.size ∧ w.capacity = v.capacity ∧ w.contents = v.contents ∧
      w.heap.mem = v.heap.mem ∧
      (v.heap.mem v.finish = none → w.heap.mem w.finish = none) ∧
      (v.LiveZone → w.LiveZone) := by
  have hsz := size_eq v hv
  have hcp := capacity_eq v hv
  have hne : v.finish ≠ v.cp_first := by omega
  refine ⟨{ v with heap := v.heap.call (.construct v.finish) }, ?_, rfl, rfl, rfl, rfl, rfl,
    rfl, rfl, fun h => h, fun h => h⟩
  simp [push_back, hne, Alloc.construct, hc]

/-- Witness of C18: `push_back(6)` on the one-element vector `[7]` at address
200 with capacity 3, the copy constructor throwing on the slot at address
201. -/
theorem push_back_throw_spec_witness :
    sample1.Valid ∧ sample1.size < sample1.capacity ∧
    ∃ w, sample1.push_back sampleThrowEnv 6 = .error (Failure.ConstructError, w) ∧
      w.finish = 201 ∧ w.size = 1 ∧ w.capacity = 3 ∧ w.contents = [some 7] ∧
      w.heap.mem w.finish = none :=
  ⟨by unfold Valid; decide, by decide,
    (push_back_throw_spec sampleThrowEnv sample1 6 (by unfold Valid; decide) (by decide)
      rfl).elim
      fun w h => ⟨w, h.1, h.2.2.1, h.2.2.2.2.1, h.2.2.2.2.2.1, h.2.2.2.2.2.2.1,
        h.2.2.2.2.2.2.2.2.1 rfl⟩⟩

/-- C19: `pop_back` undoes `push_back`: on a valid vector that keeps the
live-zone invariant, with `size() < capacity()`, when the copy constructor
does not throw, `push_back(x)` returns and a following `pop_back()` restores
the same `start`, `finish` and `cp_.first()`, the same content of every slot,
so the same set of live slots, and the same element sequence. -/
theorem push_back_pop_back_spec (env : Env T) (v : Vector T) (x : T)
    (hv : v.Valid) (hz : v.LiveZone) (hcap : v.size < v.capacity)
    (hc : env.copyThrows v.finish = false) :
    ∃ v1, v.push_back env x = .ok v1 ∧
      v1.pop_back.start = v.start ∧ v1.pop_back.finish = v.finish ∧
      v1.pop_back.cp_first = v.cp_first ∧ v1.pop_back.heap.mem = v.heap.mem ∧
      v1.pop_back.contents = v.contents ∧ v1.pop_back.size = v.size ∧
      v1.pop_back.LiveZone := by
  have hsz := size_eq v hv
  have hcp := capacity_eq v hv
  obtain ⟨ha, hb, _⟩ := hv
  have hne : v.finish ≠ v.cp_first := by omega
  have hraw : v.heap.mem v.finish = none := hz.2 _ (le_refl _) (by omega)
  have hmem : (Vector.mk v.start (v.finish + 1) v.cp_first
      ((v.heap.call (.construct v.finish)).write v.finish (some x))).pop_back.heap.mem
      = v.heap.mem := by
    funext q
    show (if q = v.finish + 1 - 1 then none
      else if q = v.finish then some x else v.heap.mem q) = _
    by_cases hq : q = v.finish
    · rw [if_pos (by omega), hq, hraw]
    · rw [if_neg (by omega), if_neg hq]
  refine ⟨_, push_back_ok env v x hne hc, rfl, rfl, rfl, hmem, ?_, rfl, ?_⟩
  · unfold contents subscript
    rw [hmem]
    rfl
  · unfold LiveZone
    rw [hmem]
    exact hz

/-- Witness of C19: `push_back(6)` then `pop_back()` on `[1,2,3,4,5]` of
capacity 8. -/
theorem push_back_pop_back_spec_witness :
    sample5.Valid ∧ sample5.LiveZone ∧ sample5.size < sample5.capacity ∧
    ∃ v1, sample5.push_back sampleEnv 6 = .ok v1 ∧
      v1.pop_back.start = 100 ∧ v1.pop_back.finish = 105 ∧ v1.pop_back.cp_first = 108 ∧
      v1.pop_back.heap.mem = sample5.heap.mem ∧ v1.pop_back.contents = sample5.contents :=
  have hz : sample5.LiveZone :=
    ⟨fun p h1 h2 => by
        have h1b : 100 ≤ p := h1
        have h2b : p < 105 := h2
        show (if 100 ≤ p ∧ p < 105 then some (p - 99) else none).isSome = true
        rw [if_pos ⟨h1b, h2b⟩]
        rfl,
      fun p h1 _ => by
        have h1b : 105 ≤ p := h1
        show (if 100 ≤ p ∧ p < 105 then some (p - 99) else none) = none
        rw [if_neg (by omega)]⟩
  ⟨by unfold Valid; decide, hz, by decide,
    (push_back_pop_back_spec sampleEnv sample5 6 (by unfold Valid; decide) hz (by decide)
      rfl).elim
      fun v1 h => ⟨v1, h.1, h.2.1, h.2.2.1, h.2.2.2.1, h.2.2.2.2.1, h.2.2.2.2.2.1⟩⟩

end Vector

end ds
end oplib
